import Mathlib

/-!
Verification of the Besselian-elements eclipse obscuration calculator
(`SATeclipse_calc.py`) against its natural-language specification.

The numeric core is embedded over the real numbers: numpy float arrays
act elementwise, so every vectorized operation is modelled by its
per-element real function, and the batch pipeline is modelled over
lists.  Branch masks with later-assignment-wins semantics are modelled
by nested conditionals that reproduce the final value of every element.
-/

namespace SATeclipse

/-- First `arccos` argument of the lens formula, `(d^2 + r^2 - R^2)/(2*d*r)`
from line 36 of the source (`R = r_sun`, `r = r_moon`). -/
noncomputable def acos_arg1 (R r d : ℝ) : ℝ := (d ^ 2 + r ^ 2 - R ^ 2) / (2 * d * r)

/-- Second `arccos` argument of the lens formula, `(d^2 + R^2 - r^2)/(2*d*R)`
from line 37 of the source. -/
noncomputable def acos_arg2 (R r d : ℝ) : ℝ := (d ^ 2 + R ^ 2 - r ^ 2) / (2 * d * R)

/-- `raw_area(R, r, d)` from the source: the two-circle intersection lens
formula, not accounting for the degenerate configurations. -/
noncomputable def raw_area (R r d : ℝ) : ℝ :=
  r ^ 2 * Real.arccos (acos_arg1 R r d)
    + R ^ 2 * Real.arccos (acos_arg2 R r d)
    - 0.5 * Real.sqrt ((-d + r + R) * (d + r - R) * (d - r + R) * (d + r + R))

/-- Mask `tf_none` (line 64): the element has no intersection,
`d > r_sun + r_moon`. -/
def tf_none (r_sun r_moon d : ℝ) : Prop := ¬ (d ≤ r_sun + r_moon)

/-- Mask `tf_annular` (line 68): one disk inset in the other with the sun
bigger than the moon. -/
def tf_annular (r_sun r_moon d : ℝ) : Prop := d ≤ |r_sun - r_moon| ∧ r_moon < r_sun

/-- Mask `tf_total` (line 72): one disk inset in the other with the moon at
least as big as the sun. -/
def tf_total (r_sun r_moon d : ℝ) : Prop := d ≤ |r_sun - r_moon| ∧ r_sun ≤ r_moon

/-- Mask `tf` (line 76): the remaining elements, handled by the lens
formula. -/
def tf_part (r_sun r_moon d : ℝ) : Prop :=
  ¬ (tf_none r_sun r_moon d ∨ tf_annular r_sun r_moon d ∨ tf_total r_sun r_moon d)

/-- `area_intersect(r_sun, r_moon, d)` from the source (lines 43-79),
elementwise.  The numpy code fills the output by masked assignments in the
order `tf_none`, `tf_annular`, `tf_total`, `tf`; the masks `tf_annular` and
`tf_total` are assigned after `tf_none` and together cover the inset
region, and `tf` is the complement of the other three, so the final value
of each element is the one given by these nested conditionals. -/
noncomputable def area_intersect (r_sun r_moon d : ℝ) : ℝ :=
  if d ≤ |r_sun - r_moon| then
    if r_moon < r_sun then
      Real.pi * r_sun ^ 2 - (Real.pi * r_sun ^ 2 - Real.pi * r_moon ^ 2)
    else
      Real.pi * r_moon ^ 2
  else if d ≤ r_sun + r_moon then
    raw_area r_sun r_moon d
  else
    0

/-- `apparent_size(R, distance)` from line 81-82 of the source:
`(R/distance).to(u.arcmin, u.dimensionless_angles())`, i.e. the
dimensionless ratio `R/distance` read as radians and converted to
arcminutes (one radian is `10800/pi` arcminutes).  The source performs no
domain check on `distance`. -/
noncomputable def apparent_size (R distance : ℝ) : ℝ :=
  R / distance * (10800 / Real.pi)

/-- `conform(arr_0, arr_1)` from lines 18-24: if the shapes differ, replace
`arr_0` by `arr_0[0]` replicated to the shape of `arr_1`. -/
def conform (arr0 arr1 : List ℝ) : List ℝ :=
  if arr0.length = arr1.length then arr0
  else List.replicate arr1.length arr0.headI

/-- The geometric obscuration of line 132 of the source, elementwise:
overlap area divided by the solar disk area `pi * r_sun_deg^2`, before the
horizon cutoff. -/
noncomputable def obscuration_geo (r_sun r_moon d : ℝ) : ℝ :=
  area_intersect r_sun r_moon d / (Real.pi * r_sun ^ 2)

/-- One element of the batch after the external ephemeris lookup: the two
angular radii in degrees, the sun-moon separation in degrees, and the
solar altitude in degrees. -/
structure ElementInput where
  r_sun : ℝ
  r_moon : ℝ
  sep : ℝ
  alt : ℝ

instance : Inhabited ElementInput := ⟨⟨0, 0, 0, 0⟩⟩

/-- The per-element obscuration computed by `calculate_obscuration`
(lines 131-135): the geometric obscuration, overwritten with 0 on the
elements whose solar altitude is strictly below `min_solar_elev_deg`. -/
noncomputable def obsc_element (min_elev : ℝ) (e : ElementInput) : ℝ :=
  if e.alt < min_elev then 0
  else obscuration_geo e.r_sun e.r_moon e.sep

/-- The vectorized obscuration pipeline of `calculate_obscuration` after
the ephemeris stage, elementwise over the batch. -/
noncomputable def calculate_obscuration_list (min_elev : ℝ)
    (batch : List ElementInput) : List ℝ :=
  batch.map (obsc_element min_elev)

/-- A caller-supplied input: either a single scalar observation or a
sequence of observations, as distinguished by `array()` (lines 12-16). -/
inductive BatchInput where
  | scalar (e : ElementInput)
  | vector (es : List ElementInput)

/-- `array(val)` from lines 12-16: a scalar input is wrapped into a
length-1 sequence, a sequence is kept as is. -/
def BatchInput.toList : BatchInput → List ElementInput
  | .scalar e => [e]
  | .vector es => es

/-- The value returned by `calculate_obscuration`: a bare float or a
sequence of floats. -/
inductive ObscResult where
  | scalar (x : ℝ)
  | vector (xs : List ℝ)

/-- Discriminator: does the result carry a sequence? -/
def ObscResult.isVector : ObscResult → Bool
  | .scalar _ => false
  | .vector _ => true

/-- `calculate_obscuration` (lines 84-171), with the external ephemeris
stage abstracted into the per-element `ElementInput` data: compute the
per-element obscurations, then (line 165-166) unwrap a length-1 result
into a bare scalar via `float(obs)`. -/
noncomputable def calculate_obscuration (min_elev : ℝ) (inp : BatchInput) : ObscResult :=
  let obs := calculate_obscuration_list min_elev inp.toList
  if obs.length = 1 then ObscResult.scalar obs.headI else ObscResult.vector obs

/-! ### Branch characterizations of `area_intersect` -/

/-- On the inset region both the annular and the total assignment store
`pi * r_moon^2`. -/
lemma area_intersect_inset (R r d : ℝ) (h : d ≤ |R - r|) :
    area_intersect R r d = Real.pi * r ^ 2 := by
  unfold area_intersect
  rw [if_pos h]
  split_ifs with h2
  · ring
  · rfl

/-- On the strict partial region `area_intersect` computes `raw_area`. -/
lemma area_intersect_part (R r d : ℝ) (h1 : |R - r| < d) (h2 : d ≤ R + r) :
    area_intersect R r d = raw_area R r d := by
  unfold area_intersect
  rw [if_neg (not_le.mpr h1), if_pos h2]

/-- Beyond the sum of the radii `area_intersect` stores 0. -/
lemma area_intersect_none (R r d : ℝ) (h1 : |R - r| < d) (h2 : R + r < d) :
    area_intersect R r d = 0 := by
  unfold area_intersect
  rw [if_neg (not_le.mpr h1), if_neg (not_le.mpr h2)]

/-- For non-negative radii the inset threshold is below the disjoint
threshold. -/
lemma abs_sub_le_add (R r : ℝ) (hR : 0 ≤ R) (hr : 0 ≤ r) : |R - r| ≤ R + r :=
  abs_le.mpr ⟨by linarith, by linarith⟩

/-- In the strict partial region with non-negative radii, both radii and
the separation are strictly positive. -/
lemma part_pos (R r d : ℝ) (hR : 0 ≤ R) (hr : 0 ≤ r)
    (h1 : |R - r| < d) (h2 : d ≤ R + r) : 0 < R ∧ 0 < r ∧ 0 < d := by
  have hd : 0 < d := lt_of_le_of_lt (abs_nonneg _) h1
  have hRr : R - r < d := lt_of_le_of_lt (le_abs_self _) h1
  have hrR : r - R < d := by
    have : r - R ≤ |R - r| := by rw [abs_sub_comm]; exact le_abs_self _
    linarith
  refine ⟨?_, ?_, hd⟩
  · by_contra hc
    push_neg at hc
    have hR0 : R = 0 := le_antisymm hc hR
    rw [hR0] at hrR h2
    simp at h2
    linarith
  · by_contra hc
    push_neg at hc
    have hr0 : r = 0 := le_antisymm hc hr
    rw [hr0] at hRr h2
    simp at h2
    linarith

/-! ### Range of the `arccos` arguments in the partial region -/

/-- In the closed partial region the first `arccos` argument lies in
`[-1, 1]`. -/
lemma acos_arg1_mem (R r d : ℝ) (hR : 0 ≤ R) (hr : 0 ≤ r)
    (h1 : |R - r| < d) (h2 : d ≤ R + r) :
    -1 ≤ acos_arg1 R r d ∧ acos_arg1 R r d ≤ 1 := by
  obtain ⟨hRp, hrp, hdp⟩ := part_pos R r d hR hr h1 h2
  have hRr : R - r < d := lt_of_le_of_lt (le_abs_self _) h1
  have hrR : r - R < d := by
    have : r - R ≤ |R - r| := by rw [abs_sub_comm]; exact le_abs_self _
    linarith
  have hden : (0 : ℝ) < 2 * d * r := by positivity
  constructor
  · rw [acos_arg1, le_div_iff₀ hden]
    nlinarith [mul_pos (show (0:ℝ) < d + r - R by linarith) (show (0:ℝ) < d + r + R by linarith)]
  · rw [acos_arg1, div_le_one hden]
    nlinarith [mul_nonneg (show (0:ℝ) ≤ -d + r + R by linarith)
      (show (0:ℝ) ≤ d - r + R by linarith)]

/-- In the closed partial region the second `arccos` argument lies in
`[-1, 1]`. -/
lemma acos_arg2_mem (R r d : ℝ) (hR : 0 ≤ R) (hr : 0 ≤ r)
    (h1 : |R - r| < d) (h2 : d ≤ R + r) :
    -1 ≤ acos_arg2 R r d ∧ acos_arg2 R r d ≤ 1 := by
  obtain ⟨hRp, hrp, hdp⟩ := part_pos R r d hR hr h1 h2
  have hRr : R - r < d := lt_of_le_of_lt (le_abs_self _) h1
  have hrR : r - R < d := by
    have : r - R ≤ |R - r| := by rw [abs_sub_comm]; exact le_abs_self _
    linarith
  have hden : (0 : ℝ) < 2 * d * R := by positivity
  constructor
  · rw [acos_arg2, le_div_iff₀ hden]
    nlinarith [mul_pos (show (0:ℝ) < d - r + R by linarith) (show (0:ℝ) < d + r + R by linarith)]
  · rw [acos_arg2, div_le_one hden]
    nlinarith [mul_nonneg (show (0:ℝ) ≤ -d + r + R by linarith)
      (show (0:ℝ) ≤ d + r - R by linarith)]

/-! ### Values of `raw_area` at the region boundaries -/

/-- At the outer boundary `d = R + r` the lens formula gives 0. -/
lemma raw_area_at_sum (R r : ℝ) (hR : 0 < R) (hr : 0 < r) :
    raw_area R r (R + r) = 0 := by
  have h1 : acos_arg1 R r (R + r) = 1 := by
    rw [acos_arg1, div_eq_one_iff_eq (by positivity)]
    ring
  have h2 : acos_arg2 R r (R + r) = 1 := by
    rw [acos_arg2, div_eq_one_iff_eq (by positivity)]
    ring
  have h3 : (-(R + r) + r + R) * ((R + r) + r - R) * ((R + r) - r + R) * ((R + r) + r + R)
      = 0 := by ring
  rw [raw_area, h1, h2, Real.arccos_one, h3, Real.sqrt_zero]
  ring

/-- At the inner boundary `d = R - r` (sun bigger) the lens formula gives
the full moon disk area. -/
lemma raw_area_at_diff1 (R r : ℝ) (hr : 0 < r) (hlt : r < R) :
    raw_area R r (R - r) = Real.pi * r ^ 2 := by
  have hd : (0:ℝ) < R - r := by linarith
  have hR : (0:ℝ) < R := by linarith
  have hden1 : (0:ℝ) < 2 * (R - r) * r := mul_pos (mul_pos two_pos hd) hr
  have hden2 : (0:ℝ) < 2 * (R - r) * R := mul_pos (mul_pos two_pos hd) hR
  have h1 : acos_arg1 R r (R - r) = -1 := by
    rw [acos_arg1, div_eq_iff (ne_of_gt hden1)]
    ring
  have h2 : acos_arg2 R r (R - r) = 1 := by
    rw [acos_arg2, div_eq_one_iff_eq (ne_of_gt hden2)]
    ring
  have h3 : (-(R - r) + r + R) * ((R - r) + r - R) * ((R - r) - r + R) * ((R - r) + r + R)
      = 0 := by ring
  rw [raw_area, h1, h2, Real.arccos_one, Real.arccos_neg_one, h3, Real.sqrt_zero]
  ring

/-- At the inner boundary `d = r - R` (moon bigger) the lens formula gives
the full sun disk area. -/
lemma raw_area_at_diff2 (R r : ℝ) (hR : 0 < R) (hlt : R < r) :
    raw_area R r (r - R) = Real.pi * R ^ 2 := by
  have hd : (0:ℝ) < r - R := by linarith
  have hr : (0:ℝ) < r := by linarith
  have hden1 : (0:ℝ) < 2 * (r - R) * r := mul_pos (mul_pos two_pos hd) hr
  have hden2 : (0:ℝ) < 2 * (r - R) * R := mul_pos (mul_pos two_pos hd) hR
  have h1 : acos_arg1 R r (r - R) = 1 := by
    rw [acos_arg1, div_eq_one_iff_eq (ne_of_gt hden1)]
    ring
  have h2 : acos_arg2 R r (r - R) = -1 := by
    rw [acos_arg2, div_eq_iff (ne_of_gt hden2)]
    ring
  have h3 : (-(r - R) + r + R) * ((r - R) + r - R) * ((r - R) - r + R) * ((r - R) + r + R)
      = 0 := by ring
  rw [raw_area, h1, h2, Real.arccos_one, Real.arccos_neg_one, h3, Real.sqrt_zero]
  ring

/-! ### Derivative of `raw_area` in the open partial region

On `|R - r| < d < R + r` the lens formula is differentiable in `d` and its
derivative collapses to `-sqrt(product)/d`, which is nonpositive.  This is
the analytic heart of the monotonicity property. -/

/-- Algebraic collapse of the product-rule derivative of the lens formula:
with `q` standing for the square root of the Heron product, the three
summands combine to `-q/x`. -/
lemma lens_deriv_identity (q x r R : ℝ) (hx : x ≠ 0) (hr : r ≠ 0) (hR : R ≠ 0) (hq : q ≠ 0)
    (hq2 : q ^ 2 = (-x + r + R) * (x + r - R) * (x - r + R) * (x + r + R)) :
    -(q / x) = r ^ 2 * (-(1 / (q / (2 * x * r))) * ((x ^ 2 - r ^ 2 + R ^ 2) / (2 * x ^ 2 * r)))
         + R ^ 2 * (-(1 / (q / (2 * x * R))) * ((x ^ 2 - R ^ 2 + r ^ 2) / (2 * x ^ 2 * R)))
         - 0.5 * ((4 * x * (r ^ 2 + R ^ 2 - x ^ 2)) / (2 * q)) := by
  have w1 : 1 / (q / (2 * x * r))
      = 2 * x * r * q / ((-x + r + R) * (x + r - R) * (x - r + R) * (x + r + R)) := by
    rw [← hq2]
    field_simp
    ring
  have w2 : 1 / (q / (2 * x * R))
      = 2 * x * R * q / ((-x + r + R) * (x + r - R) * (x - r + R) * (x + r + R)) := by
    rw [← hq2]
    field_simp
    ring
  have w3 : (4 * x * (r ^ 2 + R ^ 2 - x ^ 2)) / (2 * q)
      = 4 * x * (r ^ 2 + R ^ 2 - x ^ 2) * q
        / (2 * ((-x + r + R) * (x + r - R) * (x - r + R) * (x + r + R))) := by
    rw [← hq2]
    field_simp
    ring
  rw [w1, w2, w3]
  have hp : ((-x + r + R) * (x + r - R) * (x - r + R) * (x + r + R)) ≠ 0 := by
    rw [← hq2]; positivity
  field_simp
  ring

lemma raw_area_hasDeriv (R r x : ℝ) (hR : 0 < R) (hr : 0 < r)
    (hx1 : |R - r| < x) (hx2 : x < R + r) :
    HasDerivAt (raw_area R r)
      (-(Real.sqrt ((-x + r + R) * (x + r - R) * (x - r + R) * (x + r + R)) / x)) x := by
  have hx0 : 0 < x := lt_of_le_of_lt (abs_nonneg _) hx1
  have hRr : R - r < x := lt_of_le_of_lt (le_abs_self _) hx1
  have hrR : r - R < x := by
    have : r - R ≤ |R - r| := by rw [abs_sub_comm]; exact le_abs_self _
    linarith
  have f1 : (0:ℝ) < -x + r + R := by linarith
  have f2 : (0:ℝ) < x + r - R := by linarith
  have f3 : (0:ℝ) < x - r + R := by linarith
  have f4 : (0:ℝ) < x + r + R := by linarith
  have hp_pos : (0:ℝ) < (-x + r + R) * (x + r - R) * (x - r + R) * (x + r + R) :=
    mul_pos (mul_pos (mul_pos f1 f2) f3) f4
  have hq_pos : 0 < Real.sqrt ((-x + r + R) * (x + r - R) * (x - r + R) * (x + r + R)) :=
    Real.sqrt_pos.mpr hp_pos
  have hden1 : (0 : ℝ) < 2 * x * r := by positivity
  have hden2 : (0 : ℝ) < 2 * x * R := by positivity
  have hu_lo : -1 < acos_arg1 R r x := by
    rw [acos_arg1, lt_div_iff₀ hden1]
    nlinarith [mul_pos f2 f4]
  have hu_hi : acos_arg1 R r x < 1 := by
    rw [acos_arg1, div_lt_one hden1]
    nlinarith [mul_pos f1 f3]
  have hv_lo : -1 < acos_arg2 R r x := by
    rw [acos_arg2, lt_div_iff₀ hden2]
    nlinarith [mul_pos f3 f4]
  have hv_hi : acos_arg2 R r x < 1 := by
    rw [acos_arg2, div_lt_one hden2]
    nlinarith [mul_pos f1 f2]
  -- derivatives of the two arccos arguments
  have hnum1 : HasDerivAt (fun y : ℝ => y ^ 2 + r ^ 2 - R ^ 2) (2 * x) x := by
    simpa using ((hasDerivAt_pow 2 x).add_const (r ^ 2)).sub_const (R ^ 2)
  have hnum2 : HasDerivAt (fun y : ℝ => y ^ 2 + R ^ 2 - r ^ 2) (2 * x) x := by
    simpa using ((hasDerivAt_pow 2 x).add_const (R ^ 2)).sub_const (r ^ 2)
  have hlin1 : HasDerivAt (fun y : ℝ => 2 * y * r) (2 * r) x := by
    simpa using ((hasDerivAt_id x).const_mul 2).mul_const r
  have hlin2 : HasDerivAt (fun y : ℝ => 2 * y * R) (2 * R) x := by
    simpa using ((hasDerivAt_id x).const_mul 2).mul_const R
  have hu : HasDerivAt (fun y => acos_arg1 R r y)
      ((x ^ 2 - r ^ 2 + R ^ 2) / (2 * x ^ 2 * r)) x := by
    have h := hnum1.div hlin1 (ne_of_gt hden1)
    have : HasDerivAt (fun y : ℝ => (y ^ 2 + r ^ 2 - R ^ 2) / (2 * y * r))
        ((x ^ 2 - r ^ 2 + R ^ 2) / (2 * x ^ 2 * r)) x := by
      convert h using 1
      field_simp
      ring
    simpa [acos_arg1] using this
  have hv : HasDerivAt (fun y => acos_arg2 R r y)
      ((x ^ 2 - R ^ 2 + r ^ 2) / (2 * x ^ 2 * R)) x := by
    have h := hnum2.div hlin2 (ne_of_gt hden2)
    have : HasDerivAt (fun y : ℝ => (y ^ 2 + R ^ 2 - r ^ 2) / (2 * y * R))
        ((x ^ 2 - R ^ 2 + r ^ 2) / (2 * x ^ 2 * R)) x := by
      convert h using 1
      field_simp
      ring
    simpa [acos_arg2] using this
  -- derivative of the polynomial under the square root
  have g1 : HasDerivAt (fun y : ℝ => -y + r + R) (-1) x := by
    simpa using (((hasDerivAt_id x).neg).add_const r).add_const R
  have g2 : HasDerivAt (fun y : ℝ => y + r - R) 1 x := by
    simpa using (((hasDerivAt_id x).add_const r).sub_const R)
  have g3 : HasDerivAt (fun y : ℝ => y - r + R) 1 x := by
    simpa using (((hasDerivAt_id x).sub_const r).add_const R)
  have g4 : HasDerivAt (fun y : ℝ => y + r + R) 1 x := by
    simpa using (((hasDerivAt_id x).add_const r).add_const R)
  have hpd : HasDerivAt (fun y : ℝ => (-y + r + R) * (y + r - R) * (y - r + R) * (y + r + R))
      (4 * x * (r ^ 2 + R ^ 2 - x ^ 2)) x := by
    convert ((g1.mul g2).mul g3).mul g4 using 1
    ring
  -- assemble the three summands
  have harc1 : HasDerivAt (fun y => Real.arccos (acos_arg1 R r y))
      (-(1 / Real.sqrt (1 - acos_arg1 R r x ^ 2))
        * ((x ^ 2 - r ^ 2 + R ^ 2) / (2 * x ^ 2 * r))) x := by
    have h := (Real.hasDerivAt_arccos (ne_of_gt hu_lo) (ne_of_lt hu_hi)).comp x hu
    simpa [Function.comp] using h
  have harc2 : HasDerivAt (fun y => Real.arccos (acos_arg2 R r y))
      (-(1 / Real.sqrt (1 - acos_arg2 R r x ^ 2))
        * ((x ^ 2 - R ^ 2 + r ^ 2) / (2 * x ^ 2 * R))) x := by
    have h := (Real.hasDerivAt_arccos (ne_of_gt hv_lo) (ne_of_lt hv_hi)).comp x hv
    simpa [Function.comp] using h
  have hterm1 := harc1.const_mul (r ^ 2)
  have hterm2 := harc2.const_mul (R ^ 2)
  have hsq : HasDerivAt
      (fun y : ℝ => Real.sqrt ((-y + r + R) * (y + r - R) * (y - r + R) * (y + r + R)))
      ((4 * x * (r ^ 2 + R ^ 2 - x ^ 2))
        / (2 * Real.sqrt ((-x + r + R) * (x + r - R) * (x - r + R) * (x + r + R)))) x :=
    hpd.sqrt (ne_of_gt hp_pos)
  have hterm3 := hsq.const_mul (0.5 : ℝ)
  have htot := (hterm1.add hterm2).sub hterm3
  -- identify the assembled derivative with the closed form
  have e1 : 1 - acos_arg1 R r x ^ 2
      = ((-x + r + R) * (x + r - R) * (x - r + R) * (x + r + R)) / (2 * x * r) ^ 2 := by
    rw [acos_arg1]
    field_simp
    ring
  have e2 : Real.sqrt (1 - acos_arg1 R r x ^ 2)
      = Real.sqrt ((-x + r + R) * (x + r - R) * (x - r + R) * (x + r + R)) / (2 * x * r) := by
    rw [e1, Real.sqrt_div hp_pos.le, Real.sqrt_sq hden1.le]
  have e3 : 1 - acos_arg2 R r x ^ 2
      = ((-x + r + R) * (x + r - R) * (x - r + R) * (x + r + R)) / (2 * x * R) ^ 2 := by
    rw [acos_arg2]
    field_simp
    ring
  have e4 : Real.sqrt (1 - acos_arg2 R r x ^ 2)
      = Real.sqrt ((-x + r + R) * (x + r - R) * (x - r + R) * (x + r + R)) / (2 * x * R) := by
    rw [e3, Real.sqrt_div hp_pos.le, Real.sqrt_sq hden2.le]
  have hq2 : Real.sqrt ((-x + r + R) * (x + r - R) * (x - r + R) * (x + r + R)) ^ 2
      = (-x + r + R) * (x + r - R) * (x - r + R) * (x + r + R) :=
    Real.sq_sqrt hp_pos.le
  have hfinal : HasDerivAt
      (fun y => r ^ 2 * Real.arccos (acos_arg1 R r y) + R ^ 2 * Real.arccos (acos_arg2 R r y)
        - 0.5 * Real.sqrt ((-y + r + R) * (y + r - R) * (y - r + R) * (y + r + R)))
      (-(Real.sqrt ((-x + r + R) * (x + r - R) * (x - r + R) * (x + r + R)) / x)) x := by
    convert htot using 1
    rw [e2, e4]
    exact lens_deriv_identity _ x r R hx0.ne' hr.ne' hR.ne' hq_pos.ne' hq2
  exact hfinal

/-! ### Monotonicity and bounds of `raw_area` on the partial region -/

/-- `raw_area R r` is non-increasing on any positive closed subinterval of
the partial region. -/
lemma raw_area_antitone (R r : ℝ) (hR : 0 < R) (hr : 0 < r) (d1 d2 : ℝ)
    (h0 : 0 < d1) (hlo : |R - r| ≤ d1) (h12 : d1 ≤ d2) (hhi : d2 ≤ R + r) :
    raw_area R r d2 ≤ raw_area R r d1 := by
  have key : AntitoneOn (raw_area R r) (Set.Icc d1 d2) := by
    apply antitoneOn_of_deriv_nonpos (convex_Icc d1 d2)
    · show ContinuousOn
        (fun d => r ^ 2 * Real.arccos (acos_arg1 R r d)
          + R ^ 2 * Real.arccos (acos_arg2 R r d)
          - 0.5 * Real.sqrt ((-d + r + R) * (d + r - R) * (d - r + R) * (d + r + R)))
        (Set.Icc d1 d2)
      have hne1 : ∀ y ∈ Set.Icc d1 d2, 2 * y * r ≠ 0 := by
        intro y hy
        have hy0 : 0 < y := lt_of_lt_of_le h0 hy.1
        positivity
      have hne2 : ∀ y ∈ Set.Icc d1 d2, 2 * y * R ≠ 0 := by
        intro y hy
        have hy0 : 0 < y := lt_of_lt_of_le h0 hy.1
        positivity
      have hc1 : ContinuousOn (fun y => acos_arg1 R r y) (Set.Icc d1 d2) := by
        simp only [acos_arg1]
        exact ContinuousOn.div
          (Continuous.continuousOn (by fun_prop))
          (Continuous.continuousOn (by fun_prop)) hne1
      have hc2 : ContinuousOn (fun y => acos_arg2 R r y) (Set.Icc d1 d2) := by
        simp only [acos_arg2]
        exact ContinuousOn.div
          (Continuous.continuousOn (by fun_prop))
          (Continuous.continuousOn (by fun_prop)) hne2
      apply ContinuousOn.sub
      · exact ContinuousOn.add
          (continuousOn_const.mul (Real.continuous_arccos.comp_continuousOn hc1))
          (continuousOn_const.mul (Real.continuous_arccos.comp_continuousOn hc2))
      · exact continuousOn_const.mul
          ((Real.continuous_sqrt.comp (by fun_prop)).continuousOn)
    · intro y hy
      rw [interior_Icc] at hy
      exact (raw_area_hasDeriv R r y hR hr (lt_of_le_of_lt hlo hy.1)
        (lt_of_lt_of_le hy.2 hhi)).differentiableAt.differentiableWithinAt
    · intro y hy
      rw [interior_Icc] at hy
      have hy0 : 0 < y := lt_trans h0 hy.1
      rw [(raw_area_hasDeriv R r y hR hr (lt_of_le_of_lt hlo hy.1)
        (lt_of_lt_of_le hy.2 hhi)).deriv]
      have hnn : 0 ≤ Real.sqrt ((-y + r + R) * (y + r - R) * (y - r + R) * (y + r + R)) / y :=
        div_nonneg (Real.sqrt_nonneg _) hy0.le
      linarith
  exact key (Set.left_mem_Icc.mpr h12) (Set.right_mem_Icc.mpr h12) h12

/-- On the partial region the lens area is nonnegative. -/
lemma raw_area_nonneg (R r d : ℝ) (hR : 0 < R) (hr : 0 < r)
    (h1 : |R - r| < d) (h2 : d ≤ R + r) : 0 ≤ raw_area R r d := by
  have h0 : 0 < d := lt_of_le_of_lt (abs_nonneg _) h1
  have := raw_area_antitone R r hR hr d (R + r) h0 h1.le h2 le_rfl
  rw [raw_area_at_sum R r hR hr] at this
  linarith

/-- On the partial region the lens area is at most the full moon disk
area. -/
lemma raw_area_le_moon (R r d : ℝ) (hR : 0 < R) (hr : 0 < r)
    (h1 : |R - r| < d) (h2 : d ≤ R + r) : raw_area R r d ≤ Real.pi * r ^ 2 := by
  rcases lt_trichotomy R r with hc | hc | hc
  · have hd : (0:ℝ) < r - R := by linarith
    have habs : |R - r| = r - R := by
      rw [abs_sub_comm]
      exact abs_of_pos hd
    have := raw_area_antitone R r hR hr (r - R) d hd habs.le (habs ▸ h1.le) h2
    rw [raw_area_at_diff2 R r hR hc] at this
    have hsq : R ^ 2 ≤ r ^ 2 := by nlinarith
    have := mul_le_mul_of_nonneg_left hsq Real.pi_pos.le
    linarith
  · subst hc
    have h0 : 0 < d := by
      have : |R - R| = 0 := by simp
      linarith [lt_of_le_of_lt (abs_nonneg (R - R)) h1]
    have harg : acos_arg1 R R d = d / (2 * R) := by
      rw [acos_arg1]
      field_simp
      ring
    have harg2 : acos_arg2 R R d = d / (2 * R) := by
      rw [acos_arg2]
      field_simp
      ring
    have hhalf : Real.arccos (d / (2 * R)) ≤ Real.pi / 2 :=
      Real.arccos_le_pi_div_two.mpr (by positivity)
    have hsq := Real.sqrt_nonneg ((-d + R + R) * (d + R - R) * (d - R + R) * (d + R + R))
    rw [raw_area, harg, harg2]
    nlinarith [sq_nonneg R]
  · have hd : (0:ℝ) < R - r := by linarith
    have habs : |R - r| = R - r := abs_of_pos hd
    have := raw_area_antitone R r hR hr (R - r) d hd habs.le (habs ▸ h1.le) h2
    rw [raw_area_at_diff1 R r hr hc] at this
    linarith

/-! ### Global bounds and monotonicity of `area_intersect` -/

/-- For non-negative inputs `area_intersect` is between 0 and the area of
the larger disk. -/
lemma area_intersect_bounds (R r d : ℝ) (hR : 0 ≤ R) (hr : 0 ≤ r) (_hd : 0 ≤ d) :
    0 ≤ area_intersect R r d ∧ area_intersect R r d ≤ Real.pi * max R r ^ 2 := by
  have hmax : r ^ 2 ≤ max R r ^ 2 := pow_le_pow_left₀ hr (le_max_right R r) 2
  by_cases hA : d ≤ |R - r|
  · rw [area_intersect_inset R r d hA]
    constructor
    · positivity
    · nlinarith [Real.pi_pos]
  · push_neg at hA
    by_cases hB : d ≤ R + r
    · obtain ⟨hRp, hrp, hdp⟩ := part_pos R r d hR hr hA hB
      rw [area_intersect_part R r d hA hB]
      refine ⟨raw_area_nonneg R r d hRp hrp hA hB, ?_⟩
      have h1 := raw_area_le_moon R r d hRp hrp hA hB
      nlinarith [Real.pi_pos]
    · push_neg at hB
      rw [area_intersect_none R r d hA hB]
      exact ⟨le_rfl, by positivity⟩

/-- For non-negative inputs and a fixed pair of radii, `area_intersect` is
non-increasing in the separation, across all branches. -/
lemma area_intersect_antitone (R r d1 d2 : ℝ) (hR : 0 ≤ R) (hr : 0 ≤ r)
    (h1 : 0 ≤ d1) (h12 : d1 ≤ d2) :
    area_intersect R r d2 ≤ area_intersect R r d1 := by
  by_cases hA2 : d2 ≤ |R - r|
  · have hA1 : d1 ≤ |R - r| := le_trans h12 hA2
    rw [area_intersect_inset R r d1 hA1, area_intersect_inset R r d2 hA2]
  · push_neg at hA2
    by_cases hB2 : d2 ≤ R + r
    · obtain ⟨hRp, hrp, _⟩ := part_pos R r d2 hR hr hA2 hB2
      rw [area_intersect_part R r d2 hA2 hB2]
      by_cases hA1 : d1 ≤ |R - r|
      · rw [area_intersect_inset R r d1 hA1]
        exact raw_area_le_moon R r d2 hRp hrp hA2 hB2
      · push_neg at hA1
        rw [area_intersect_part R r d1 hA1 (le_trans h12 hB2)]
        exact raw_area_antitone R r hRp hrp d1 d2
          (lt_of_le_of_lt (abs_nonneg _) hA1) hA1.le h12 hB2
    · push_neg at hB2
      rw [area_intersect_none R r d2 hA2 hB2]
      exact (area_intersect_bounds R r d1 hR hr h1).1

/-! ### Claim C1 -/

/-- Claim C1, counterexample: with the non-negative finite inputs
`r_sun = 1`, `r_moon = 2`, `d = 0` (a Total configuration), the pre-cutoff
obscuration computed at line 132 equals 4, so it is not in `[0, 1]`. -/
theorem C1_counterexample :
    obscuration_geo 1 2 0 = 4 ∧ ¬ (obscuration_geo 1 2 0 ≤ 1) := by
  have h : area_intersect 1 2 0 = Real.pi * 2 ^ 2 :=
    area_intersect_inset 1 2 0 (abs_nonneg _)
  have hval : obscuration_geo 1 2 0 = 4 := by
    rw [obscuration_geo, h, div_eq_iff (by positivity : Real.pi * (1:ℝ) ^ 2 ≠ 0)]
    ring
  exact ⟨hval, by rw [hval]; norm_num⟩

/-- Claim C1 (amended): for non-negative finite inputs with `r_sun > 0` the
pre-cutoff obscuration lies in `[0, (max r_sun r_moon / r_sun)^2]`; it lies
in `[0, 1]` whenever `r_moon ≤ r_sun`, but in the Total configuration with
`r_moon > r_sun` it equals `(r_moon/r_sun)^2 > 1`. -/
theorem C1_obscuration_bounds (R r d : ℝ) (hR : 0 < R) (hr : 0 ≤ r) (hd : 0 ≤ d) :
    0 ≤ obscuration_geo R r d ∧
    obscuration_geo R r d ≤ (max R r / R) ^ 2 ∧
    (r ≤ R → obscuration_geo R r d ≤ 1) := by
  obtain ⟨h0, h1⟩ := area_intersect_bounds R r d hR.le hr hd
  have hden : (0:ℝ) < Real.pi * R ^ 2 := by positivity
  have key : obscuration_geo R r d ≤ (max R r / R) ^ 2 := by
    rw [obscuration_geo, div_pow]
    calc area_intersect R r d / (Real.pi * R ^ 2)
        ≤ Real.pi * max R r ^ 2 / (Real.pi * R ^ 2) := by
          exact div_le_div_of_nonneg_right h1 hden.le
      _ = max R r ^ 2 / R ^ 2 := by
          rw [mul_div_mul_left _ _ (ne_of_gt Real.pi_pos)]
  refine ⟨div_nonneg h0 hden.le, key, ?_⟩
  intro hrR
  have hm : max R r = R := max_eq_left hrR
  have : (max R r / R) ^ 2 = 1 := by rw [hm, div_self hR.ne']; norm_num
  linarith [key, this.ge, this.le]

/-- Claim C1, witness for the amended theorem at `R = 1`, `r = 1`,
`d = 0`. -/
theorem C1_witness :
    0 ≤ obscuration_geo 1 1 0 ∧
    obscuration_geo 1 1 0 ≤ (max 1 1 / 1) ^ 2 ∧
    ((1:ℝ) ≤ 1 → obscuration_geo 1 1 0 ≤ 1) :=
  C1_obscuration_bounds 1 1 0 (by norm_num) (by norm_num) (by norm_num)

/-! ### Claim C2 -/

/-- Claim C2: for non-negative elementwise inputs, `area_intersect` is
finite (a real number), lies in `[0, pi * max(r_sun, r_moon)^2]`, and the
four branch masks cover the element, so no element keeps its NaN
initialization. -/
theorem C2_area_bounds_and_cover (R r d : ℝ) (hR : 0 ≤ R) (hr : 0 ≤ r) (hd : 0 ≤ d) :
    (0 ≤ area_intersect R r d ∧ area_intersect R r d ≤ Real.pi * max R r ^ 2) ∧
    (tf_none R r d ∨ tf_annular R r d ∨ tf_total R r d ∨ tf_part R r d) := by
  refine ⟨area_intersect_bounds R r d hR hr hd, ?_⟩
  by_cases h : tf_none R r d ∨ tf_annular R r d ∨ tf_total R r d
  · tauto
  · exact Or.inr (Or.inr (Or.inr h))

/-- Claim C2, witness at `R = 1`, `r = 1`, `d = 1`. -/
theorem C2_witness :
    (0 ≤ area_intersect 1 1 1 ∧ area_intersect 1 1 1 ≤ Real.pi * max 1 1 ^ 2) ∧
    (tf_none 1 1 1 ∨ tf_annular 1 1 1 ∨ tf_total 1 1 1 ∨ tf_part 1 1 1) :=
  C2_area_bounds_and_cover 1 1 1 (by norm_num) (by norm_num) (by norm_num)

/-! ### Claim C3 -/

/-- Claim C3: whenever `d <= |r_sun - r_moon|`, `area_intersect` reports
`pi * r_moon^2` (the annular expression simplifies to it, and the total
branch stores it directly); consequently `area_intersect r r 0 = pi * r^2`
for every `r >= 0`. -/
theorem C3_inset_value (R r d : ℝ) :
    (d ≤ |R - r| → area_intersect R r d = Real.pi * r ^ 2) ∧
    (0 ≤ r → area_intersect r r 0 = Real.pi * r ^ 2) :=
  ⟨fun h => area_intersect_inset R r d h,
   fun _ => area_intersect_inset r r 0 (by simp)⟩

/-- Claim C3, witness at `R = 2`, `r = 1`, `d = 0` and at `r = 1` for the
coincident-disks consequence. -/
theorem C3_witness :
    area_intersect 2 1 0 = Real.pi * 1 ^ 2 ∧ area_intersect 1 1 0 = Real.pi * 1 ^ 2 :=
  ⟨(C3_inset_value 2 1 0).1 (abs_nonneg _), (C3_inset_value 2 1 0).2 (by norm_num)⟩

/-! ### Claim C4 -/

/-- Claim C4, counterexample: at the touching boundary `d = r_sun + r_moon`
with the degenerate radii `r_sun = 0`, `r_moon = 1`, the code routes the
element through the total branch and returns `pi`, not 0. -/
theorem C4_counterexample : area_intersect 0 1 (0 + 1) ≠ 0 := by
  have h : area_intersect 0 1 (0 + 1) = Real.pi * 1 ^ 2 :=
    area_intersect_inset 0 1 (0 + 1) (by norm_num)
  rw [h]
  positivity

/-- Claim C4 (amended): for `r_sun, r_moon, d >= 0` with
`d > r_sun + r_moon` the area is exactly 0; at the touching boundary
`d = r_sun + r_moon` the area is 0 provided `r_sun > 0` or `r_moon = 0`
(the degenerate case `r_sun = 0 < r_moon` instead reports the moon disk
area); in particular `area_intersect 1 1 2 = 0` through the lens
formula. -/
theorem C4_disjoint_value (R r d : ℝ) (hR : 0 ≤ R) (hr : 0 ≤ r) :
    (R + r < d → area_intersect R r d = 0) ∧
    (d = R + r → (0 < R ∨ r = 0) → area_intersect R r d = 0) ∧
    area_intersect 1 1 2 = 0 := by
  refine ⟨?_, ?_, ?_⟩
  · intro h
    exact area_intersect_none R r d (lt_of_le_of_lt (abs_sub_le_add R r hR hr) h) h
  · intro hd hcase
    by_cases hr0 : r = 0
    · subst hr0
      have h : area_intersect R 0 d = Real.pi * 0 ^ 2 :=
        area_intersect_inset R 0 d (by rw [hd]; simp [abs_of_nonneg hR])
      rw [h]
      ring
    · have hrp : 0 < r := lt_of_le_of_ne hr (Ne.symm hr0)
      rcases hcase with hRp | h0
      · have hlt : |R - r| < d := by
          rw [hd]
          exact abs_lt.mpr ⟨by linarith, by linarith⟩
        rw [area_intersect_part R r d hlt (le_of_eq hd), hd,
          raw_area_at_sum R r hRp hrp]
      · exact absurd h0 hr0
  · have h1 : |(1:ℝ) - 1| < 2 := by norm_num
    rw [area_intersect_part 1 1 2 h1 (by norm_num),
      show (2:ℝ) = 1 + 1 by norm_num, raw_area_at_sum 1 1 one_pos one_pos]

/-- Claim C4, witness at `R = 1`, `r = 1`, `d = 3` (disjoint) and the
touching boundary `d = 2`. -/
theorem C4_witness : area_intersect 1 1 3 = 0 ∧ area_intersect 1 1 2 = 0 :=
  ⟨(C4_disjoint_value 1 1 3 (by norm_num) (by norm_num)).1 (by norm_num),
   (C4_disjoint_value 1 1 2 (by norm_num) (by norm_num)).2.2⟩

/-! ### Claim C5 -/

/-- Claim C5: for every fixed pair of non-negative radii, the function
`d -> area_intersect r_sun r_moon d` is non-increasing on `d >= 0`, across
all four branches and their boundaries. -/
theorem C5_area_antitone (R r d1 d2 : ℝ) (hR : 0 ≤ R) (hr : 0 ≤ r)
    (h1 : 0 ≤ d1) (h12 : d1 ≤ d2) :
    area_intersect R r d2 ≤ area_intersect R r d1 :=
  area_intersect_antitone R r d1 d2 hR hr h1 h12

/-- Claim C5, witness at `R = 1`, `r = 1`, `d1 = 1`, `d2 = 2`. -/
theorem C5_witness : area_intersect 1 1 2 ≤ area_intersect 1 1 1 :=
  C5_area_antitone 1 1 1 2 (by norm_num) (by norm_num) (by norm_num) (by norm_num)

/-! ### Claim C10 -/

/-- Claim C10: in the partial-overlap branch (the branch filtering
`|r_sun - r_moon| < d <= r_sun + r_moon` with non-negative radii), both
`acos` arguments of the lens formula are guaranteed to lie in `[-1, 1]`
before `arccos` is applied, so no domain failure can propagate into the
returned area. -/
theorem C10_acos_args_in_range (R r d : ℝ) (hR : 0 ≤ R) (hr : 0 ≤ r)
    (h1 : |R - r| < d) (h2 : d ≤ R + r) :
    (-1 ≤ acos_arg1 R r d ∧ acos_arg1 R r d ≤ 1) ∧
    (-1 ≤ acos_arg2 R r d ∧ acos_arg2 R r d ≤ 1) ∧
    area_intersect R r d = raw_area R r d :=
  ⟨acos_arg1_mem R r d hR hr h1 h2, acos_arg2_mem R r d hR hr h1 h2,
   area_intersect_part R r d h1 h2⟩

/-- Claim C10, witness at `R = 1`, `r = 1`, `d = 1`. -/
theorem C10_witness :
    (-1 ≤ acos_arg1 1 1 1 ∧ acos_arg1 1 1 1 ≤ 1) ∧
    (-1 ≤ acos_arg2 1 1 1 ∧ acos_arg2 1 1 1 ≤ 1) ∧
    area_intersect 1 1 1 = raw_area 1 1 1 :=
  C10_acos_args_in_range 1 1 1 (by norm_num) (by norm_num) (by norm_num) (by norm_num)

/-! ### Claim C6 -/

/-- Claim C6: for every batch element whose solar altitude is strictly
below `min_solar_elev_deg`, `calculate_obscuration` returns obscuration
exactly 0 for that element, regardless of the geometric overlap; elements
at or above the threshold keep their geometric value. -/
theorem C6_horizon_cutoff (min_elev : ℝ) (batch : List ElementInput) (i : ℕ)
    (hi : i < batch.length) :
    ((batch.get ⟨i, hi⟩).alt < min_elev →
      (calculate_obscuration_list min_elev batch).get
        ⟨i, by simpa [calculate_obscuration_list] using hi⟩ = 0) ∧
    (min_elev ≤ (batch.get ⟨i, hi⟩).alt →
      (calculate_obscuration_list min_elev batch).get
        ⟨i, by simpa [calculate_obscuration_list] using hi⟩
        = obscuration_geo (batch.get ⟨i, hi⟩).r_sun (batch.get ⟨i, hi⟩).r_moon
            (batch.get ⟨i, hi⟩).sep) := by
  have hget : (calculate_obscuration_list min_elev batch).get
      ⟨i, by simpa [calculate_obscuration_list] using hi⟩
      = obsc_element min_elev (batch.get ⟨i, hi⟩) := by
    simp [calculate_obscuration_list, List.get_eq_getElem, List.getElem_map]
  constructor
  · intro h
    rw [hget, obsc_element, if_pos h]
  · intro h
    rw [hget, obsc_element, if_neg (not_lt.mpr h)]

/-- Claim C6, witness: a single element with altitude -5 below the
threshold 0 yields obscuration 0. -/
theorem C6_witness :
    (calculate_obscuration_list 0 [⟨1, 1, 0, -5⟩]).get
      ⟨0, by simp [calculate_obscuration_list]⟩ = 0 :=
  (C6_horizon_cutoff 0 [⟨1, 1, 0, -5⟩] 0 (by simp)).1 (by norm_num)

/-! ### Claim C7 -/

/-- Claim C7, counterexample: `apparent_size` called with the negative
distance -2 does not fail; it silently returns a negative angular
radius. -/
theorem C7_counterexample : apparent_size 1 (-2) < 0 := by
  rw [apparent_size]
  have h1 : (1:ℝ) / (-2) < 0 := by norm_num
  have h2 : (0:ℝ) < 10800 / Real.pi := by positivity
  exact mul_neg_of_neg_of_pos h1 h2

/-- Claim C7 (amended): `apparent_size` performs no domain check: it is a
total function returning `R/distance` converted to arcminutes for every
input, and a positive radius with a negative distance silently yields a
negative angular radius instead of an error. -/
theorem C7_no_domain_check (R distance : ℝ) :
    apparent_size R distance = R / distance * (10800 / Real.pi) ∧
    (0 < R → distance < 0 → apparent_size R distance < 0) := by
  refine ⟨rfl, fun hR hd => ?_⟩
  rw [apparent_size]
  have h1 : R / distance < 0 := div_neg_of_pos_of_neg hR hd
  have h2 : (0:ℝ) < 10800 / Real.pi := by positivity
  exact mul_neg_of_neg_of_pos h1 h2

/-- Claim C7, witness at `R = 2`, `distance = -1`. -/
theorem C7_witness :
    apparent_size 2 (-1) = 2 / (-1) * (10800 / Real.pi) ∧ apparent_size 2 (-1) < 0 :=
  ⟨(C7_no_domain_check 2 (-1)).1,
   (C7_no_domain_check 2 (-1)).2 (by norm_num) (by norm_num)⟩

/-! ### Claim C8 -/

/-- Claim C8, counterexample: a length-3 field conformed against a
length-5 reference is not rejected: `conform` silently replaces it by its
first element replicated, discarding the second and third entries. -/
theorem C8_counterexample :
    conform [1, 2, 3] [0, 0, 0, 0, 0] = [1, 1, 1, 1, 1] := by
  rfl

/-- Claim C8 (amended): `calculate_obscuration` conforms latitude,
longitude and height to the shape of the time sequence: a field whose
length equals the reference length is kept, and a field of any other
length (not only length 1) is silently replaced by its first element
replicated to the reference length; no length combination is rejected
with an error. -/
theorem C8_conform_semantics (arr0 arr1 : List ℝ) :
    (conform arr0 arr1).length = arr1.length ∧
    (arr0.length = arr1.length → conform arr0 arr1 = arr0) ∧
    (arr0.length ≠ arr1.length →
      conform arr0 arr1 = List.replicate arr1.length arr0.headI) := by
  refine ⟨?_, fun h => ?_, fun h => ?_⟩
  · rw [conform]
    split_ifs with h
    · exact h
    · exact List.length_replicate _ _
  · rw [conform, if_pos h]
  · rw [conform, if_neg h]

/-- Claim C8, witness: matching lengths are kept unchanged and the output
length equals the reference length. -/
theorem C8_witness :
    (conform [1, 2] [3, 4]).length = 2 ∧ conform [1, 2] [3, 4] = [1, 2] :=
  ⟨by simpa using (C8_conform_semantics [1, 2] [3, 4]).1,
   (C8_conform_semantics [1, 2] [3, 4]).2.1 rfl⟩

/-! ### Claim C9 -/

/-- Claim C9, counterexample: a sequence input of length 1 does not return
a length-1 sequence: `calculate_obscuration` unwraps it into a bare
scalar. -/
theorem C9_counterexample :
    (calculate_obscuration 0 (BatchInput.vector [⟨1, 1, 3, 1⟩])).isVector = false := by
  rfl

/-- Claim C9 (amended): a sequence input whose length is not 1 returns a
sequence of the same length with elements aligned with the input order;
any input resolving to exactly one element - a scalar or a length-1
sequence - returns a bare scalar instead of a length-1 sequence. -/
theorem C9_batch_shape (min_elev : ℝ) (inp : BatchInput) :
    (inp.toList.length ≠ 1 →
      calculate_obscuration min_elev inp
        = ObscResult.vector (inp.toList.map (obsc_element min_elev))) ∧
    ((inp.toList.map (obsc_element min_elev)).length = inp.toList.length) ∧
    (∀ i (hi : i < inp.toList.length),
      (inp.toList.map (obsc_element min_elev)).get ⟨i, by simpa using hi⟩
        = obsc_element min_elev (inp.toList.get ⟨i, hi⟩)) ∧
    (inp.toList.length = 1 →
      calculate_obscuration min_elev inp
        = ObscResult.scalar (obsc_element min_elev inp.toList.headI)) := by
  refine ⟨fun h => ?_, List.length_map _ _, fun i hi => ?_, fun h => ?_⟩
  · simp only [calculate_obscuration, calculate_obscuration_list]
    rw [if_neg]
    simpa using h
  · simp [List.get_eq_getElem, List.getElem_map]
  · obtain ⟨a, ha⟩ := List.length_eq_one.mp h
    simp only [calculate_obscuration, calculate_obscuration_list, ha]
    rfl

/-- Claim C9, witness: a length-2 sequence input returns the aligned
length-2 sequence of per-element obscurations. -/
theorem C9_witness :
    calculate_obscuration 0 (BatchInput.vector [⟨1, 1, 3, 1⟩, ⟨1, 1, 0, 1⟩])
      = ObscResult.vector
          ((BatchInput.vector [⟨1, 1, 3, 1⟩, ⟨1, 1, 0, 1⟩]).toList.map (obsc_element 0)) :=
  (C9_batch_shape 0 (BatchInput.vector [⟨1, 1, 3, 1⟩, ⟨1, 1, 0, 1⟩])).1
    (by simp [BatchInput.toList])

end SATeclipse
